import Mathlib

/-!
Verification of the Game of Life implementation in `main.cu`.

The program operates on a fixed-size 2D board stored as a flat buffer of
unsigned bytes, indexed by `x * ncols + y`.  We embed a buffer as a total
function `Int → Nat` (cell values are byte values; the program only ever
stores 0 or 1).  Coordinates and dimensions are C `int`s, embedded as `Int`.

The CUDA kernel `simstep` runs one thread per cell `(x, y)`; each thread
reads only the `current` buffer and writes only the cell `x * ncols + y`
of the `next` buffer.  We embed the single-thread body (`simstepThread`),
the final value it stores (`stepCell`), a whole kernel launch as a fold of
thread bodies over a list of thread coordinates (`simstepGrid`), and the
net per-cell effect of a launch on a square board (`gameStep`,
`simstepLaunch`).  The host-side generation loop of `main`, with its
even/odd ping-pong buffer selection and the final `cudaMemcpy` from
`pcurr`, is embedded as `genLoop` / `mainFinalDevice`.
-/

/-- A board buffer: flat array of byte cell values, addressed by `Int`
offsets as in C pointer arithmetic.  Positions outside the allocated
range are phantom (never read by the guarded accessors). -/
abbrev Buf : Type := Int → Nat

/-- Store `v` at offset `i` of the buffer (the effect of `p[i] = v`). -/
def writeBuf (b : Buf) (i : Int) (v : Nat) : Buf :=
  fun j => if j = i then v else b j

/-- Translation of `getat` (main.cu lines 29-34): bounds-checked read.
Returns `pboard[x * ncols + y]` when `x >= 0 && x < ncols && y >= 0 &&
y < nrows`, and `0x0` otherwise. -/
def getat (pboard : Buf) (nrows ncols : Int) (x y : Int) : Nat :=
  if 0 ≤ x ∧ x < ncols ∧ 0 ≤ y ∧ y < nrows then pboard (x * ncols + y) else 0

/-- Translation of `numneighbors` (main.cu lines 36-57): the sum of the
eight bounds-safe neighbour reads, in source order. -/
def numneighbors (x y : Int) (pboard : Buf) (nrows ncols : Int) : Nat :=
  getat pboard nrows ncols (x - 1) y +
  getat pboard nrows ncols (x + 1) y +
  getat pboard nrows ncols x (y - 1) +
  getat pboard nrows ncols x (y + 1) +
  getat pboard nrows ncols (x - 1) (y - 1) +
  getat pboard nrows ncols (x - 1) (y + 1) +
  getat pboard nrows ncols (x + 1) (y - 1) +
  getat pboard nrows ncols (x + 1) (y + 1)

/-- The value left in `pNewBoard[x * ncols + y]` by the thread `(x, y)` of
the `simstep` kernel (main.cu lines 59-89).  The kernel first copies the
current cell, then conditionally overwrites it for underpopulation
(`neighbors < 2`), overcrowding (`neighbors > 3`) and reproduction
(`neighbors == 3 && !pCurrBoard[indx]`); the last write wins, which this
definition expresses by nesting the conditionals in reverse order of the
source writes.  `simstepThread_next` below proves this equal to the
write-by-write translation of the kernel body. -/
def stepCell (nrows ncols : Int) (pCurrBoard : Buf) (x y : Int) : Nat :=
  let indx := x * ncols + y
  let v0 := pCurrBoard indx
  let neighbors := numneighbors x y pCurrBoard nrows ncols
  let v1 := if neighbors < 2 then 0 else v0
  let v2 := if neighbors > 3 then 0 else v1
  if neighbors = 3 ∧ pCurrBoard indx = 0 then 1 else v2

/-- Statement-by-statement translation of the body of the `simstep`
kernel (main.cu lines 59-89) for the thread with cell coordinates
`(x, y)`, acting on the machine state `(pCurrBoard, pNewBoard)`.  Every
assignment in the source targets `pNewBoard[indx]`; the current board is
only read.  The C condition `!pCurrBoard[indx]` is truthiness of a byte,
i.e. `pCurrBoard indx = 0`. -/
def simstepThread (nrows ncols : Int) (x y : Int) (st : Buf × Buf) : Buf × Buf :=
  let pCurrBoard := st.1
  let indx := x * ncols + y
  let s1 := writeBuf st.2 indx (pCurrBoard indx)
  let neighbors := numneighbors x y pCurrBoard nrows ncols
  let s2 := if neighbors < 2 then writeBuf s1 indx 0 else s1
  let s3 := if neighbors > 3 then writeBuf s2 indx 0 else s2
  let s4 := if neighbors = 3 ∧ pCurrBoard indx = 0 then writeBuf s3 indx 1 else s3
  (pCurrBoard, s4)

/-- One kernel launch as the composition of the per-cell thread bodies
over a list of thread coordinates.  The threads of a launch run
concurrently; because their writes are disjoint (claim C5) any
interleaving, in particular this sequential fold, yields the same final
buffers. -/
def simstepGrid (nrows ncols : Int) (ts : List (Int × Int)) (st : Buf × Buf) : Buf × Buf :=
  ts.foldl (fun s t => simstepThread nrows ncols t.1 t.2 s) st

/-- Thread coordinates along one launch dimension: every
`blockIdx * BLOCK_SIDE + threadIdx` with `BLOCK_SIDE = 16` (main.cu lines
25, 61-62), over `nblocks` blocks. -/
def blockThreads (nblocks : Nat) : List Nat :=
  (List.range nblocks).flatMap (fun b : Nat => (List.range 16).map (fun t : Nat => b * 16 + t))

/-- All thread cell coordinates of one `simstep` launch with
`gridsize = (boardW / BLOCK_SIDE, boardH / BLOCK_SIDE)` and 16 × 16
blocks (main.cu lines 145-146, 166). -/
def gridCoords (w h : Nat) : List (Int × Int) :=
  (blockThreads (w / 16)).flatMap
    (fun x : Nat => (blockThreads (h / 16)).map (fun y : Nat => ((x : Int), (y : Int))))

/-- Net effect of one `simstep` launch on a square `n × n` board, viewed
from the written buffer: cell `i` of `pNewBoard` ends up holding the value
computed by the thread `(i / n, i % n)` (the unique thread whose write
target `x * n + y` equals `i`), while offsets outside the buffer do not
exist (fixed at 0 here).  The launch geometry `gridsize * blocksize`
covers exactly the cells `x ∈ [0, ncols), y ∈ [0, nrows)`. -/
def gameStep (n : Int) (curr : Buf) : Buf :=
  fun i => if 0 ≤ i ∧ i < n * n then stepCell n n curr (i / n) (i % n) else 0

/-- Same as `gameStep`, but keeping the previous contents of the target
buffer at phantom offsets, for use in the double-buffered loop model. -/
def simstepLaunch (n : Int) (curr next : Buf) : Buf :=
  fun i => if 0 ≤ i ∧ i < n * n then stepCell n n curr (i / n) (i % n) else next i

/-- The generation loop of `main` (main.cu lines 153-175): iteration
`gen` launches the kernel with `pcurr = pDevBoard0, pnext = pDevBoard1`
when `gen` is even, and with the roles exchanged when `gen` is odd.
`remaining` counts the iterations still to run, `gen` is the loop
counter, and the state is the contents of `(pDevBoard0, pDevBoard1)`. -/
def genLoopAux (n : Int) : Nat → Nat → Buf × Buf → Buf × Buf
  | 0, _, st => st
  | Nat.succ r, gen, st =>
      genLoopAux n r (gen + 1)
        (if gen % 2 = 0 then (st.1, simstepLaunch n st.1 st.2)
         else (simstepLaunch n st.2 st.1, st.2))

/-- Contents of the two device boards after `gens` loop iterations. -/
def genLoop (n : Int) (gens : Nat) (d0 d1 : Buf) : Buf × Buf :=
  genLoopAux n gens 0 (d0, d1)

/-- The buffer that `main` copies back to the host and renders as the
"Resulting Board" (main.cu line 182): it reads `pcurr`, which after the
final iteration `gen = gens - 1` points to `pDevBoard0` when
`gens - 1` is even and to `pDevBoard1` otherwise.  (For `gens = 0` the C
program reads an uninitialized pointer; this model is only meaningful
for `gens ≥ 1`.) -/
def mainFinalDevice (n : Int) (gens : Nat) (d0 d1 : Buf) : Buf :=
  let st := genLoop n gens d0 d1
  if (gens - 1) % 2 = 0 then st.1 else st.2

/-- The all-zero buffer, the result of `cudaMemset(pDevBoard1, 0x0, ...)`
(main.cu line 143). -/
def zeroBuf : Buf := fun _ => 0

/-- Iteration space of the two nested loops of `randomizeBoard` and of
`printBoard`: `x` over `[0, ncols)` outer, `y` over `[0, nrows)` inner. -/
def coordList (ncols nrows : Int) : List (Int × Int) :=
  (List.range ncols.toNat).flatMap
    (fun x : Nat => (List.range nrows.toNat).map (fun y : Nat => ((x : Int), (y : Int))))

/-- Translation of `randomizeBoard` (main.cu lines 91-101).  The loop
writes `pboard[x * ncols + y] = (rnd >= probability) ? 0x1 : 0x0` for
every `(x, y)`; the floating-point comparison of the uniform draw against
the probability threshold is abstracted by its Boolean outcome `draw`. -/
def randomizeBoard (draw : Int × Int → Bool) (pboard : Buf) (nrows ncols : Int) : Buf :=
  (coordList ncols nrows).foldl
    (fun bb p => writeBuf bb (p.1 * ncols + p.2) (if draw p then 1 else 0)) pboard

/-- Horizontal blinker fixture: a board whose only live cells are the
three flat offsets `cx * n + (cy - 1)`, `cx * n + cy`, `cx * n + (cy + 1)`
(three consecutive cells of printed row `cx`), all other cells dead. -/
def hBlink (n cx cy : Int) : Buf := fun i =>
  if i = cx * n + (cy - 1) ∨ i = cx * n + cy ∨ i = cx * n + (cy + 1) then 1 else 0

/-- Vertical blinker fixture: live cells exactly at `(cx - 1, cy)`,
`(cx, cy)`, `(cx + 1, cy)`. -/
def vBlink (n cx cy : Int) : Buf := fun i =>
  if i = (cx - 1) * n + cy ∨ i = cx * n + cy ∨ i = (cx + 1) * n + cy then 1 else 0

/-- Outcome of the allocation phase of `main` (lines 133-143): either the
run is aborted with a diagnostic, or control reaches the generation loop
carrying the three allocation results (host `malloc`, the two
`cudaMalloc`s), each `none` on failure. -/
inductive AllocPhase where
  | abortRun : String → AllocPhase
  | proceed : Option Buf → Option Buf → Option Buf → AllocPhase

/-- Whether the allocation phase aborted the run. -/
def AllocPhase.aborted : AllocPhase → Bool
  | .abortRun _ => true
  | .proceed _ _ _ => false

/-- Translation of the allocation phase of `main` (main.cu lines
133-143): `malloc`, `cudaMalloc`, `cudaMalloc` in sequence.  The source
contains no test of any of the three results and no abort path — control
falls through to `randomizeBoard`, the `cudaMemcpy`s and the generation
loop unconditionally, whatever the allocation outcomes were. -/
def mainAllocPhase (hostAlloc devAlloc0 devAlloc1 : Option Buf) : AllocPhase :=
  AllocPhase.proceed hostAlloc devAlloc0 devAlloc1

/-- C `isspace` character class used by `atoi`. -/
def isSpaceChar (c : Char) : Bool :=
  c == ' ' || c == '\t' || c == '\n' || c == '\x0b' || c == '\x0c' || c == '\r'

/-- Accumulate the leading decimal digits, stopping at the first
non-digit, starting from `acc` (the digit loop of C `atoi`). -/
def readDigits : List Char → Nat → Nat
  | [], acc => acc
  | c :: cs, acc => if c.isDigit then readDigits cs (acc * 10 + (c.toNat - 48)) else acc

/-- ISO C `atoi` semantics, used by `main` on `argv[1]`: skip leading
white space, accept one optional sign, convert the following run of
decimal digits; if that run is empty (no conversion can be performed)
the result is 0. -/
def atoi (s : String) : Int :=
  match s.data.dropWhile (fun c => isSpaceChar c) with
  | '-' :: r => -(readDigits r 0 : Int)
  | '+' :: r => (readDigits r 0 : Int)
  | r => (readDigits r 0 : Int)

/-- Generation-count selection of `main` (main.cu lines 123-127):
`ngenerations = 1000000`, overwritten by `atoi(argv[1])` whenever at
least one command-line argument is present. -/
def ngenerationsFromArgs (args : List String) : Int :=
  match args with
  | [] => 1000000
  | a :: _ => atoi a

/-! ### Arithmetic helpers for the flat index `x * n + y` -/

/-- In-bounds coordinates on a square board yield an offset inside the
`n * n` buffer. -/
lemma idx_range (n u v : Int) (hn : 0 < n) (hu1 : 0 ≤ u) (hu2 : u < n)
    (hv1 : 0 ≤ v) (hv2 : v < n) : 0 ≤ u * n + v ∧ u * n + v < n * n := by
  constructor
  · have h0 : 0 ≤ u * n := mul_nonneg hu1 (le_of_lt hn)
    linarith
  · have h1 : u * n ≤ (n - 1) * n := mul_le_mul_of_nonneg_right (by omega) (le_of_lt hn)
    have h2 : (n - 1) * n = n * n - n := by ring
    linarith

/-- Uniqueness of the digit decomposition `a * n + v` with `0 ≤ v < n`. -/
lemma flat_eq (n a v b w : Int) (hn : 0 < n) (hv1 : 0 ≤ v) (hv2 : v < n)
    (hw1 : 0 ≤ w) (hw2 : w < n) : a * n + v = b * n + w ↔ a = b ∧ v = w := by
  constructor
  · intro h
    have hd : (a - b) * n = w - v := by
      have h' : a * n - b * n = w - v := by linarith
      calc (a - b) * n = a * n - b * n := by ring
        _ = w - v := h'
    have hab : a = b := by
      rcases lt_trichotomy a b with hlt | heq | hgt
      · exfalso
        have hm : (a - b) * n ≤ (-1) * n :=
          mul_le_mul_of_nonneg_right (by omega) (le_of_lt hn)
        have hneg : (-1 : Int) * n = -n := by ring
        linarith
      · exact heq
      · exfalso
        have hm : (1 : Int) * n ≤ (a - b) * n :=
          mul_le_mul_of_nonneg_right (by omega) (le_of_lt hn)
        have hone : (1 : Int) * n = n := by ring
        linarith
    refine ⟨hab, ?_⟩
    subst hab
    linarith
  · rintro ⟨rfl, rfl⟩
    rfl

/-- Division and remainder of a flat offset recover the coordinates. -/
lemma flat_divmod (n a c : Int) (hn : 0 < n) (hc1 : 0 ≤ c) (hc2 : c < n) :
    (a * n + c) / n = a ∧ (a * n + c) % n = c := by
  constructor
  · rw [add_comm, Int.add_mul_ediv_right c a (ne_of_gt hn),
      Int.ediv_eq_zero_of_lt hc1 hc2, zero_add]
  · rw [add_comm, Int.add_mul_emod_self, Int.emod_eq_of_lt hc1 hc2]

/-- Bounds of `i / n` and `i % n` for an offset inside the buffer. -/
lemma divmod_bounds (n i : Int) (hn : 0 < n) (h1 : 0 ≤ i) (h2 : i < n * n) :
    0 ≤ i / n ∧ i / n < n ∧ 0 ≤ i % n ∧ i % n < n := by
  refine ⟨Int.ediv_nonneg h1 (le_of_lt hn), ?_, Int.emod_nonneg i (ne_of_gt hn),
    Int.emod_lt_of_pos i hn⟩
  by_contra hcon
  push_neg at hcon
  have heq : n * (i / n) + i % n = i := Int.ediv_add_emod i n
  have h3 : 0 ≤ i % n := Int.emod_nonneg i (ne_of_gt hn)
  have h4 : n * n ≤ n * (i / n) := mul_le_mul_of_nonneg_left hcon (le_of_lt hn)
  linarith

/-- Reconstruction of a flat offset from its coordinates. -/
lemma idx_recon (n i : Int) : i / n * n + i % n = i := by
  rw [mul_comm]
  exact Int.ediv_add_emod i n

/-- Bounds-checked read, in-bounds case. -/
lemma getat_in (pb : Buf) (nrows ncols u v : Int) (h1 : 0 ≤ u) (h2 : u < ncols)
    (h3 : 0 ≤ v) (h4 : v < nrows) : getat pb nrows ncols u v = pb (u * ncols + v) :=
  if_pos ⟨h1, h2, h3, h4⟩

/-! ### The kernel thread body -/

/-- The thread `(x, y)` of the `simstep` kernel changes the target buffer
exactly at its own cell `x * ncols + y`, storing the value `stepCell`. -/
lemma simstepThread_next (nrows ncols x y : Int) (curr next : Buf) :
    (simstepThread nrows ncols x y (curr, next)).2 =
      writeBuf next (x * ncols + y) (stepCell nrows ncols curr x y) := by
  funext j
  by_cases hj : j = x * ncols + y
  · subst hj
    simp only [simstepThread, stepCell]
    split_ifs <;> simp [writeBuf]
  · simp only [simstepThread, stepCell]
    split_ifs <;> simp [writeBuf, hj]

/-- The thread body never modifies the current board. -/
lemma simstepThread_fst (nrows ncols x y : Int) (st : Buf × Buf) :
    (simstepThread nrows ncols x y st).1 = st.1 := rfl

/-- A whole launch, however its threads are listed, never modifies the
current board: every write of every thread targets the next buffer. -/
lemma simstepGrid_fst (nrows ncols : Int) (ts : List (Int × Int)) :
    ∀ st : Buf × Buf, (simstepGrid nrows ncols ts st).1 = st.1 := by
  induction ts with
  | nil => intro st; rfl
  | cons t rest ih =>
      intro st
      simp only [simstepGrid, List.foldl_cons] at *
      rw [ih]
      exact simstepThread_fst nrows ncols t.1 t.2 st

/-- Reading the offset just written. -/
lemma writeBuf_same (b : Buf) (i : Int) (v : Nat) : writeBuf b i v i = v := by
  simp [writeBuf]

/-- Reading any other offset. -/
lemma writeBuf_other (b : Buf) (i : Int) (v : Nat) (j : Int) (h : j ≠ i) :
    writeBuf b i v j = b j := by
  simp [writeBuf, h]

/-- C1: for every current board and in-bounds cell, the next value follows
the four rules exactly: a live cell dies below 2 and above 3 live
neighbours and survives at 2 or 3; a dead cell becomes alive exactly at 3
live neighbours and stays dead otherwise. -/
theorem c1_rule_table (nrows ncols : Int) (b : Buf) (x y : Int)
    (hx : 0 ≤ x ∧ x < ncols) (hy : 0 ≤ y ∧ y < nrows) :
    (b (x * ncols + y) = 1 →
      ((numneighbors x y b nrows ncols < 2 → stepCell nrows ncols b x y = 0) ∧
       ((numneighbors x y b nrows ncols = 2 ∨ numneighbors x y b nrows ncols = 3) →
         stepCell nrows ncols b x y = 1) ∧
       (3 < numneighbors x y b nrows ncols → stepCell nrows ncols b x y = 0))) ∧
    (b (x * ncols + y) = 0 →
      ((numneighbors x y b nrows ncols = 3 → stepCell nrows ncols b x y = 1) ∧
       (numneighbors x y b nrows ncols ≠ 3 → stepCell nrows ncols b x y = 0))) := by
  refine ⟨fun hc => ⟨fun hk => ?_, fun hk => ?_, fun hk => ?_⟩,
    fun hc => ⟨fun hk => ?_, fun hk => ?_⟩⟩ <;>
    (simp only [stepCell]; split_ifs <;> omega)

/-- Witness for C1 on a 5 × 5 board holding a horizontal blinker: the
centre cell is alive with 2 live neighbours and survives. -/
theorem c1_rule_table_witness :
    ((0 : Int) ≤ 2 ∧ (2 : Int) < 5) ∧ hBlink 5 2 2 (2 * 5 + 2) = 1 ∧
      (numneighbors 2 2 (hBlink 5 2 2) 5 5 = 2 ∨ numneighbors 2 2 (hBlink 5 2 2) 5 5 = 3) ∧
      stepCell 5 5 (hBlink 5 2 2) 2 2 = 1 :=
  ⟨by decide, by decide, by decide,
    ((c1_rule_table 5 5 (hBlink 5 2 2) 2 2 (by decide) (by decide)).1 (by decide)).2.1 (by decide)⟩

/-- C3: the live-neighbour count is the sum of exactly the eight
bounds-safe reads around the cell, the cell itself excluded; for an
interior cell it equals the 3 × 3 neighbourhood total minus the centre. -/
theorem c3_neighbor_count (b : Buf) (nrows ncols x y : Int) :
    (numneighbors x y b nrows ncols =
      getat b nrows ncols (x - 1) y + getat b nrows ncols (x + 1) y +
      getat b nrows ncols x (y - 1) + getat b nrows ncols x (y + 1) +
      getat b nrows ncols (x - 1) (y - 1) + getat b nrows ncols (x - 1) (y + 1) +
      getat b nrows ncols (x + 1) (y - 1) + getat b nrows ncols (x + 1) (y + 1)) ∧
    (1 ≤ x → x + 1 < ncols → 1 ≤ y → y + 1 < nrows →
      numneighbors x y b nrows ncols =
        (b ((x - 1) * ncols + (y - 1)) + b ((x - 1) * ncols + y) +
         b ((x - 1) * ncols + (y + 1)) + b (x * ncols + (y - 1)) +
         b (x * ncols + y) + b (x * ncols + (y + 1)) +
         b ((x + 1) * ncols + (y - 1)) + b ((x + 1) * ncols + y) +
         b ((x + 1) * ncols + (y + 1))) - b (x * ncols + y)) := by
  refine ⟨rfl, fun h1 h2 h3 h4 => ?_⟩
  simp only [numneighbors, getat]
  split_ifs <;> omega

/-- Witness for C3 at the interior centre of a 3 × 3 board holding a
horizontal blinker. -/
theorem c3_neighbor_count_witness :
    ((1 : Int) ≤ 1) ∧ ((1 : Int) + 1 < 3) ∧
      numneighbors 1 1 (hBlink 3 1 1) 3 3 =
        (hBlink 3 1 1 ((1 - 1) * 3 + (1 - 1)) + hBlink 3 1 1 ((1 - 1) * 3 + 1) +
         hBlink 3 1 1 ((1 - 1) * 3 + (1 + 1)) + hBlink 3 1 1 (1 * 3 + (1 - 1)) +
         hBlink 3 1 1 (1 * 3 + 1) + hBlink 3 1 1 (1 * 3 + (1 + 1)) +
         hBlink 3 1 1 ((1 + 1) * 3 + (1 - 1)) + hBlink 3 1 1 ((1 + 1) * 3 + 1) +
         hBlink 3 1 1 ((1 + 1) * 3 + (1 + 1))) - hBlink 3 1 1 (1 * 3 + 1) :=
  ⟨by decide, by decide,
    (c3_neighbor_count (hBlink 3 1 1) 3 3 1 1).2 (by decide) (by decide) (by decide) (by decide)⟩

/-- C4: `getat` returns the stored cell for in-bounds coordinates and 0
for all others; out of bounds it does not access the buffer at all (the
result is the same for every buffer).  Consequently the corner cell
(0, 0) receives neighbour contributions from exactly its 3 in-bounds
neighbours (1,0), (0,1) and (1,1). -/
theorem c4_boundary_policy (b : Buf) (nrows ncols x y : Int) :
    ((0 ≤ x ∧ x < ncols ∧ 0 ≤ y ∧ y < nrows) → getat b nrows ncols x y = b (x * ncols + y)) ∧
    (¬(0 ≤ x ∧ x < ncols ∧ 0 ≤ y ∧ y < nrows) → ∀ q : Buf, getat q nrows ncols x y = 0) ∧
    (2 ≤ nrows → 2 ≤ ncols →
      numneighbors 0 0 b nrows ncols = b (1 * ncols + 0) + b (0 * ncols + 1) + b (1 * ncols + 1)) := by
  refine ⟨fun h => if_pos h, fun h q => if_neg h, fun hr hc => ?_⟩
  simp only [numneighbors, getat]
  norm_num
  split_ifs <;> omega

/-- Witness for C4: in-bounds read, out-of-bounds read, and the corner
sum, on a 2 × 2 board with a single live cell. -/
theorem c4_boundary_policy_witness :
    getat (hBlink 2 0 0) 2 2 1 1 = hBlink 2 0 0 (1 * 2 + 1) ∧
      getat zeroBuf 2 2 (-1) 0 = 0 ∧
      numneighbors 0 0 (hBlink 2 0 0) 2 2 =
        hBlink 2 0 0 (1 * 2 + 0) + hBlink 2 0 0 (0 * 2 + 1) + hBlink 2 0 0 (1 * 2 + 1) :=
  ⟨(c4_boundary_policy (hBlink 2 0 0) 2 2 1 1).1 (by decide),
    (c4_boundary_policy zeroBuf 2 2 (-1) 0).2.1 (by decide) zeroBuf,
    (c4_boundary_policy (hBlink 2 0 0) 2 2 0 0).2.2 (by decide) (by decide)⟩

/-- C5: during one kernel launch every thread `(x, y)` writes only its
own cell `x * n + y` of the next buffer, distinct in-bounds cells have
distinct flat write targets, every target lies inside the `n * n`
buffer, and the current buffer is never written, whatever the thread
schedule. -/
theorem c5_race_freedom (n : Int) (curr next : Buf) (x y x1 y1 x2 y2 : Int)
    (hn : 0 < n) (hx : 0 ≤ x) (hx2 : x < n) (hy : 0 ≤ y) (hy2 : y < n)
    (h1a : 0 ≤ x1) (h1b : x1 < n) (h1c : 0 ≤ y1) (h1d : y1 < n)
    (h2a : 0 ≤ x2) (h2b : x2 < n) (h2c : 0 ≤ y2) (h2d : y2 < n)
    (hne : (x1, y1) ≠ (x2, y2)) :
    (∀ j : Int, j ≠ x * n + y → (simstepThread n n x y (curr, next)).2 j = next j) ∧
    (0 ≤ x * n + y ∧ x * n + y < n * n) ∧
    x1 * n + y1 ≠ x2 * n + y2 ∧
    (∀ ts : List (Int × Int), (simstepGrid n n ts (curr, next)).1 = curr) := by
  refine ⟨fun j hj => ?_, idx_range n x y hn hx hx2 hy hy2, fun hcontra => ?_,
    fun ts => simstepGrid_fst n n ts (curr, next)⟩
  · rw [simstepThread_next]
    exact writeBuf_other next (x * n + y) _ j hj
  · rw [flat_eq n x1 y1 x2 y2 hn h1c h1d h2c h2d] at hcontra
    exact hne (by rw [hcontra.1, hcontra.2])

/-- Witness for C5 on a 2 × 2 board with threads (0,1) and (1,0). -/
theorem c5_race_freedom_witness :
    ((0 : Int) < 2) ∧ ((0, 1) : Int × Int) ≠ (1, 0) ∧
      (0 * 2 + 1 : Int) ≠ 1 * 2 + 0 ∧
      (simstepGrid 2 2 [(0, 1), (1, 0)] (hBlink 2 0 0, zeroBuf)).1 = hBlink 2 0 0 :=
  ⟨by decide, by decide,
    (c5_race_freedom 2 (hBlink 2 0 0) zeroBuf 0 0 0 1 1 0 (by decide) (by decide)
      (by decide) (by decide) (by decide) (by decide) (by decide) (by decide) (by decide)
      (by decide) (by decide) (by decide) (by decide) (by decide)).2.2.1,
    (c5_race_freedom 2 (hBlink 2 0 0) zeroBuf 0 0 0 1 1 0 (by decide) (by decide)
      (by decide) (by decide) (by decide) (by decide) (by decide) (by decide) (by decide)
      (by decide) (by decide) (by decide) (by decide) (by decide)).2.2.2 [(0, 1), (1, 0)]⟩

/-- A board that is dead on every real cell steps to the all-zero
buffer: every neighbour read returns 0, so no cell is born. -/
lemma gameStep_zero (n : Int) (hn : 0 < n) (b : Buf)
    (hb : ∀ i, 0 ≤ i → i < n * n → b i = 0) : gameStep n b = zeroBuf := by
  funext i
  simp only [gameStep, zeroBuf]
  split_ifs with hi
  · obtain ⟨h1, h2⟩ := hi
    have hread : ∀ u v : Int, getat b n n u v = 0 := by
      intro u v
      simp only [getat]
      split_ifs with hbv
      · obtain ⟨hr1, hr2⟩ := idx_range n u v hn hbv.1 hbv.2.1 hbv.2.2.1 hbv.2.2.2
        exact hb _ hr1 hr2
      · rfl
    have hself : b (i / n * n + i % n) = 0 := by rw [idx_recon]; exact hb i h1 h2
    simp [stepCell, numneighbors, hread, hself]
  · rfl

/-- C9: the all-dead board is a fixed point of the generation step: after
any number `k` of generations every cell is still dead. -/
theorem c9_all_dead_fixed (n : Int) (hn : 0 < n) (b : Buf)
    (hb : ∀ i, 0 ≤ i → i < n * n → b i = 0) (k : Nat) :
    ∀ i : Int, 0 ≤ i → i < n * n → (gameStep n)^[k] b i = 0 := by
  intro i h1 h2
  cases k with
  | zero => exact hb i h1 h2
  | succ m =>
      have hz : gameStep n zeroBuf = zeroBuf := gameStep_zero n hn zeroBuf (fun _ _ _ => rfl)
      rw [Function.iterate_succ_apply, gameStep_zero n hn b hb, Function.iterate_fixed hz m]
      rfl

/-- Witness for C9: a 3 × 3 all-dead board is still dead at cell 4 after
5 generations. -/
theorem c9_all_dead_fixed_witness :
    ((0 : Int) < 3) ∧ (gameStep 3)^[5] zeroBuf 4 = 0 :=
  ⟨by decide, c9_all_dead_fixed 3 (by decide) zeroBuf (fun _ _ _ => rfl) 5 4 (by decide) (by decide)⟩

/-- A fold of cell writes leaves untargeted offsets unchanged. -/
lemma foldl_write_untouched (v : Int × Int → Nat) (ncols : Int) (l : List (Int × Int)) :
    ∀ (bb : Buf) (i : Int), (∀ p ∈ l, p.1 * ncols + p.2 ≠ i) →
      (l.foldl (fun b0 p => writeBuf b0 (p.1 * ncols + p.2) (v p)) bb) i = bb i := by
  induction l with
  | nil => intro bb i _; rfl
  | cons p rest ih =>
      intro bb i h
      simp only [List.foldl_cons]
      rw [ih _ i (fun q hq => h q (List.mem_cons_of_mem _ hq))]
      exact writeBuf_other bb _ _ i (fun he => h p (List.mem_cons_self _ _) he.symm)

/-- A fold of cell writes whose values are all 0 or 1 leaves a 0-or-1
value at every offset it targets. -/
lemma foldl_write_binary (v : Int × Int → Nat) (ncols : Int) (hv : ∀ p, v p = 0 ∨ v p = 1)
    (l : List (Int × Int)) :
    ∀ (bb : Buf) (i : Int), (∃ p ∈ l, p.1 * ncols + p.2 = i) →
      ((l.foldl (fun b0 p => writeBuf b0 (p.1 * ncols + p.2) (v p)) bb) i = 0 ∨
       (l.foldl (fun b0 p => writeBuf b0 (p.1 * ncols + p.2) (v p)) bb) i = 1) := by
  induction l with
  | nil =>
      rintro bb i ⟨p, hp, _⟩
      exact absurd hp (List.not_mem_nil p)
  | cons p rest ih =>
      intro bb i hex
      simp only [List.foldl_cons]
      by_cases hc : ∃ q ∈ rest, q.1 * ncols + q.2 = i
      · exact ih _ i hc
      · push_neg at hc
        rw [foldl_write_untouched v ncols rest _ i hc]
        obtain ⟨q, hq, hqi⟩ := hex
        rcases List.mem_cons.mp hq with rfl | hq'
        · rw [← hqi, writeBuf_same]
          exact hv q
        · exact absurd hqi (hc q hq')

/-- Every in-range offset of a square board is targeted by the
randomization loop (by the iteration `(i / n, i % n)`). -/
lemma coordList_covers (n : Int) (hn : 0 < n) (i : Int) (h1 : 0 ≤ i) (h2 : i < n * n) :
    ∃ p ∈ coordList n n, p.1 * n + p.2 = i := by
  obtain ⟨hq1, hq2, hr1, hr2⟩ := divmod_bounds n i hn h1 h2
  have e1 : ((i / n).toNat : Int) = i / n := Int.toNat_of_nonneg hq1
  have e2 : ((i % n).toNat : Int) = i % n := Int.toNat_of_nonneg hr1
  refine ⟨(((i / n).toNat : Int), ((i % n).toNat : Int)), ?_, ?_⟩
  · apply List.mem_flatMap.mpr
    refine ⟨(i / n).toNat, List.mem_range.mpr ((Int.toNat_lt_toNat hn).mpr hq2), ?_⟩
    exact List.mem_map_of_mem (fun y : Nat => (((i / n).toNat : Int), (y : Int)))
      (List.mem_range.mpr ((Int.toNat_lt_toNat hn).mpr hr2))
  · show ((i / n).toNat : Int) * n + ((i % n).toNat : Int) = i
    rw [e1, e2, idx_recon]

/-- C10: cell values stay binary.  A step on a board whose real cells are
all 0 or 1 produces only 0-or-1 cells, and both initialization paths —
the randomize loop and the zeroed second buffer — establish the binary
invariant on every real cell. -/
theorem c10_binary_cells (n : Int) (hn : 0 < n) (b : Buf)
    (hb : ∀ i, 0 ≤ i → i < n * n → b i = 0 ∨ b i = 1) :
    (∀ i : Int, 0 ≤ i → i < n * n → (gameStep n b i = 0 ∨ gameStep n b i = 1)) ∧
    (∀ (draw : Int × Int → Bool) (pb : Buf) (i : Int), 0 ≤ i → i < n * n →
      (randomizeBoard draw pb n n i = 0 ∨ randomizeBoard draw pb n n i = 1)) ∧
    (∀ i : Int, zeroBuf i = 0 ∨ zeroBuf i = 1) := by
  refine ⟨fun i h1 h2 => ?_, fun draw pb i h1 h2 => ?_, fun i => Or.inl rfl⟩
  · simp only [gameStep]
    rw [if_pos ⟨h1, h2⟩]
    simp only [stepCell, idx_recon]
    split_ifs
    · exact Or.inr rfl
    · exact Or.inl rfl
    · exact Or.inl rfl
    · exact hb i h1 h2
  · exact foldl_write_binary (fun p => if draw p then 1 else 0) n
      (fun p => by by_cases h : draw p <;> simp [h]) (coordList n n) pb i
      (coordList_covers n hn i h1 h2)

/-- Witness for C10 on a 2 × 2 board: step of an all-dead board, the
randomize loop with an alternating draw, and the zero buffer. -/
theorem c10_binary_cells_witness :
    ((0 : Int) < 2) ∧
      (gameStep 2 zeroBuf 3 = 0 ∨ gameStep 2 zeroBuf 3 = 1) ∧
      (randomizeBoard (fun p => p.2 == 0) zeroBuf 2 2 2 = 0 ∨
        randomizeBoard (fun p => p.2 == 0) zeroBuf 2 2 2 = 1) ∧
      (zeroBuf 5 = 0 ∨ zeroBuf 5 = 1) :=
  ⟨by decide,
    (c10_binary_cells 2 (by decide) zeroBuf (fun _ _ _ => Or.inl rfl)).1 3 (by decide) (by decide),
    (c10_binary_cells 2 (by decide) zeroBuf (fun _ _ _ => Or.inl rfl)).2.1
      (fun p => p.2 == 0) zeroBuf 2 (by decide) (by decide),
    (c10_binary_cells 2 (by decide) zeroBuf (fun _ _ _ => Or.inl rfl)).2.2 5⟩

/-- Reading a cell of the horizontal blinker board: the flat offset
`u * n + v` is live exactly when `u` is the blinker row and `v` is within
one of the blinker centre column. -/
lemma hBlink_read (n cx cy u v : Int) (hn : 0 < n) (hcy1 : 2 ≤ cy) (hcy2 : cy + 3 ≤ n)
    (hv1 : 0 ≤ v) (hv2 : v < n) :
    hBlink n cx cy (u * n + v) = if u = cx ∧ cy - 1 ≤ v ∧ v ≤ cy + 1 then 1 else 0 := by
  simp only [hBlink]
  refine if_congr ?_ rfl rfl
  constructor
  · rintro (h1 | h1 | h1)
    · obtain ⟨e1, e2⟩ := (flat_eq n u v cx (cy - 1) hn hv1 hv2 (by omega) (by omega)).mp h1
      exact ⟨e1, by omega⟩
    · obtain ⟨e1, e2⟩ := (flat_eq n u v cx cy hn hv1 hv2 (by omega) (by omega)).mp h1
      exact ⟨e1, by omega⟩
    · obtain ⟨e1, e2⟩ := (flat_eq n u v cx (cy + 1) hn hv1 hv2 (by omega) (by omega)).mp h1
      exact ⟨e1, by omega⟩
  · rintro ⟨rfl, w1, w2⟩
    have hv : v = cy - 1 ∨ v = cy ∨ v = cy + 1 := by omega
    rcases hv with rfl | rfl | rfl
    · exact Or.inl rfl
    · exact Or.inr (Or.inl rfl)
    · exact Or.inr (Or.inr rfl)

/-- Reading a cell of the vertical blinker board. -/
lemma vBlink_read (n cx cy u v : Int) (hn : 0 < n) (hcx1 : 2 ≤ cx) (hcx2 : cx + 3 ≤ n)
    (hcy1 : 2 ≤ cy) (hcy2 : cy + 3 ≤ n) (hv1 : 0 ≤ v) (hv2 : v < n) :
    vBlink n cx cy (u * n + v) = if cx - 1 ≤ u ∧ u ≤ cx + 1 ∧ v = cy then 1 else 0 := by
  simp only [vBlink]
  refine if_congr ?_ rfl rfl
  constructor
  · rintro (h1 | h1 | h1)
    · obtain ⟨e1, e2⟩ := (flat_eq n u v (cx - 1) cy hn hv1 hv2 (by omega) (by omega)).mp h1
      exact ⟨by omega, by omega, e2⟩
    · obtain ⟨e1, e2⟩ := (flat_eq n u v cx cy hn hv1 hv2 (by omega) (by omega)).mp h1
      exact ⟨by omega, by omega, e2⟩
    · obtain ⟨e1, e2⟩ := (flat_eq n u v (cx + 1) cy hn hv1 hv2 (by omega) (by omega)).mp h1
      exact ⟨by omega, by omega, e2⟩
  · rintro ⟨w1, w2, rfl⟩
    have hu : u = cx - 1 ∨ u = cx ∨ u = cx + 1 := by omega
    rcases hu with rfl | rfl | rfl
    · exact Or.inl rfl
    · exact Or.inr (Or.inl rfl)
    · exact Or.inr (Or.inr rfl)

/-- Bounds-safe read of any board agreeing in range with the horizontal
blinker, as a pure coordinate indicator (also correct out of bounds,
where `getat` yields 0 and the blinker cells are interior). -/
lemma getat_hBlink (n cx cy : Int) (b : Buf) (hn : 0 < n)
    (hcx1 : 2 ≤ cx) (hcx2 : cx + 3 ≤ n) (hcy1 : 2 ≤ cy) (hcy2 : cy + 3 ≤ n)
    (hb : ∀ i, 0 ≤ i → i < n * n → b i = hBlink n cx cy i) (u v : Int) :
    getat b n n u v = if u = cx ∧ cy - 1 ≤ v ∧ v ≤ cy + 1 then 1 else 0 := by
  simp only [getat]
  by_cases hbnd : 0 ≤ u ∧ u < n ∧ 0 ≤ v ∧ v < n
  · obtain ⟨r1, r2⟩ := idx_range n u v hn hbnd.1 hbnd.2.1 hbnd.2.2.1 hbnd.2.2.2
    rw [if_pos hbnd, hb _ r1 r2,
      hBlink_read n cx cy u v hn hcy1 hcy2 hbnd.2.2.1 hbnd.2.2.2]
  · have hc : ¬(u = cx ∧ cy - 1 ≤ v ∧ v ≤ cy + 1) := by
      rintro ⟨rfl, w1, w2⟩
      exact hbnd ⟨by omega, by omega, by omega, by omega⟩
    rw [if_neg hbnd, if_neg hc]

/-- Bounds-safe read of any board agreeing in range with the vertical
blinker. -/
lemma getat_vBlink (n cx cy : Int) (b : Buf) (hn : 0 < n)
    (hcx1 : 2 ≤ cx) (hcx2 : cx + 3 ≤ n) (hcy1 : 2 ≤ cy) (hcy2 : cy + 3 ≤ n)
    (hb : ∀ i, 0 ≤ i → i < n * n → b i = vBlink n cx cy i) (u v : Int) :
    getat b n n u v = if cx - 1 ≤ u ∧ u ≤ cx + 1 ∧ v = cy then 1 else 0 := by
  simp only [getat]
  by_cases hbnd : 0 ≤ u ∧ u < n ∧ 0 ≤ v ∧ v < n
  · obtain ⟨r1, r2⟩ := idx_range n u v hn hbnd.1 hbnd.2.1 hbnd.2.2.1 hbnd.2.2.2
    rw [if_pos hbnd, hb _ r1 r2,
      vBlink_read n cx cy u v hn hcx1 hcx2 hcy1 hcy2 hbnd.2.2.1 hbnd.2.2.2]
  · have hc : ¬(cx - 1 ≤ u ∧ u ≤ cx + 1 ∧ v = cy) := by
      rintro ⟨w1, w2, rfl⟩
      exact hbnd ⟨by omega, by omega, by omega, by omega⟩
    rw [if_neg hbnd, if_neg hc]

/-- The kernel body as nested conditionals: the last write wins, and the
three overwrite conditions are pairwise exclusive. -/
lemma stepCell_eval (nrows ncols : Int) (b : Buf) (x y : Int) :
    stepCell nrows ncols b x y =
      if numneighbors x y b nrows ncols = 3 ∧ b (x * ncols + y) = 0 then 1
      else if numneighbors x y b nrows ncols > 3 then 0
      else if numneighbors x y b nrows ncols < 2 then 0
      else b (x * ncols + y) := rfl

/-- Value of a binary indicator together with its defining condition. -/
lemma indicator_spec (c : Prop) [Decidable c] :
    (c ∧ (if c then (1 : Nat) else 0) = 1) ∨ (¬c ∧ (if c then (1 : Nat) else 0) = 0) := by
  by_cases h : c
  · exact Or.inl ⟨h, if_pos h⟩
  · exact Or.inr ⟨h, if_neg h⟩

/-- One step on a board agreeing in range with a horizontal blinker: the
cell `(x, y)` becomes live exactly when it belongs to the vertical
blinker through the same centre. -/
lemma stepCell_hBlink (n cx cy : Int) (b : Buf) (hn : 0 < n)
    (hcx1 : 2 ≤ cx) (hcx2 : cx + 3 ≤ n) (hcy1 : 2 ≤ cy) (hcy2 : cy + 3 ≤ n)
    (hb : ∀ i, 0 ≤ i → i < n * n → b i = hBlink n cx cy i)
    (x y : Int) (hx1 : 0 ≤ x) (hx2 : x < n) (hy1 : 0 ≤ y) (hy2 : y < n) :
    stepCell n n b x y = if cx - 1 ≤ x ∧ x ≤ cx + 1 ∧ y = cy then 1 else 0 := by
  have hg := getat_hBlink n cx cy b hn hcx1 hcx2 hcy1 hcy2 hb
  have hself : b (x * n + y) = if x = cx ∧ cy - 1 ≤ y ∧ y ≤ cy + 1 then 1 else 0 := by
    obtain ⟨r1, r2⟩ := idx_range n x y hn hx1 hx2 hy1 hy2
    rw [hb _ r1 r2, hBlink_read n cx cy x y hn hcy1 hcy2 hy1 hy2]
  have hcnt : numneighbors x y b n n =
      (if x - 1 = cx ∧ cy - 1 ≤ y ∧ y ≤ cy + 1 then 1 else 0) +
      (if x + 1 = cx ∧ cy - 1 ≤ y ∧ y ≤ cy + 1 then 1 else 0) +
      (if x = cx ∧ cy - 1 ≤ y - 1 ∧ y - 1 ≤ cy + 1 then 1 else 0) +
      (if x = cx ∧ cy - 1 ≤ y + 1 ∧ y + 1 ≤ cy + 1 then 1 else 0) +
      (if x - 1 = cx ∧ cy - 1 ≤ y - 1 ∧ y - 1 ≤ cy + 1 then 1 else 0) +
      (if x - 1 = cx ∧ cy - 1 ≤ y + 1 ∧ y + 1 ≤ cy + 1 then 1 else 0) +
      (if x + 1 = cx ∧ cy - 1 ≤ y - 1 ∧ y - 1 ≤ cy + 1 then 1 else 0) +
      (if x + 1 = cx ∧ cy - 1 ≤ y + 1 ∧ y + 1 ≤ cy + 1 then 1 else 0) := by
    simp only [numneighbors, hg]
  have H : ∃ k1 k2 k3 k4 k5 k6 k7 k8 : Nat, numneighbors x y b n n =
      k1 + k2 + k3 + k4 + k5 + k6 + k7 + k8 :=
    ⟨_, _, _, _, _, _, _, _, hcnt⟩
  obtain ⟨k1, k2, k3, k4, k5, k6, k7, k8, hsum⟩ := H
  have Hs : ∃ c0 : Nat, b (x * n + y) = c0 ∧
      ((x = cx ∧ cy - 1 ≤ y ∧ y ≤ cy + 1) ∧ c0 = 1 ∨
        ¬(x = cx ∧ cy - 1 ≤ y ∧ y ≤ cy + 1) ∧ c0 = 0) :=
    ⟨_, hself, indicator_spec _⟩
  obtain ⟨c0, hc0, Ks⟩ := Hs
  rw [stepCell_eval, hc0]
  rw [hsum] at hcnt ⊢
  clear hsum hg hself hb
  split_ifs at hcnt <;> first | (exfalso; omega) | (split_ifs <;> omega)

/-- One step on a board agreeing in range with a vertical blinker: the
cell `(x, y)` becomes live exactly when it belongs to the horizontal
blinker through the same centre. -/
lemma stepCell_vBlink (n cx cy : Int) (b : Buf) (hn : 0 < n)
    (hcx1 : 2 ≤ cx) (hcx2 : cx + 3 ≤ n) (hcy1 : 2 ≤ cy) (hcy2 : cy + 3 ≤ n)
    (hb : ∀ i, 0 ≤ i → i < n * n → b i = vBlink n cx cy i)
    (x y : Int) (hx1 : 0 ≤ x) (hx2 : x < n) (hy1 : 0 ≤ y) (hy2 : y < n) :
    stepCell n n b x y = if x = cx ∧ cy - 1 ≤ y ∧ y ≤ cy + 1 then 1 else 0 := by
  have hg := getat_vBlink n cx cy b hn hcx1 hcx2 hcy1 hcy2 hb
  have hself : b (x * n + y) = if cx - 1 ≤ x ∧ x ≤ cx + 1 ∧ y = cy then 1 else 0 := by
    obtain ⟨r1, r2⟩ := idx_range n x y hn hx1 hx2 hy1 hy2
    rw [hb _ r1 r2, vBlink_read n cx cy x y hn hcx1 hcx2 hcy1 hcy2 hy1 hy2]
  have hcnt : numneighbors x y b n n =
      (if cx - 1 ≤ x - 1 ∧ x - 1 ≤ cx + 1 ∧ y = cy then 1 else 0) +
      (if cx - 1 ≤ x + 1 ∧ x + 1 ≤ cx + 1 ∧ y = cy then 1 else 0) +
      (if cx - 1 ≤ x ∧ x ≤ cx + 1 ∧ y - 1 = cy then 1 else 0) +
      (if cx - 1 ≤ x ∧ x ≤ cx + 1 ∧ y + 1 = cy then 1 else 0) +
      (if cx - 1 ≤ x - 1 ∧ x - 1 ≤ cx + 1 ∧ y - 1 = cy then 1 else 0) +
      (if cx - 1 ≤ x - 1 ∧ x - 1 ≤ cx + 1 ∧ y + 1 = cy then 1 else 0) +
      (if cx - 1 ≤ x + 1 ∧ x + 1 ≤ cx + 1 ∧ y - 1 = cy then 1 else 0) +
      (if cx - 1 ≤ x + 1 ∧ x + 1 ≤ cx + 1 ∧ y + 1 = cy then 1 else 0) := by
    simp only [numneighbors, hg]
  have H : ∃ k1 k2 k3 k4 k5 k6 k7 k8 : Nat, numneighbors x y b n n =
      k1 + k2 + k3 + k4 + k5 + k6 + k7 + k8 :=
    ⟨_, _, _, _, _, _, _, _, hcnt⟩
  obtain ⟨k1, k2, k3, k4, k5, k6, k7, k8, hsum⟩ := H
  have Hs : ∃ c0 : Nat, b (x * n + y) = c0 ∧
      ((cx - 1 ≤ x ∧ x ≤ cx + 1 ∧ y = cy) ∧ c0 = 1 ∨
        ¬(cx - 1 ≤ x ∧ x ≤ cx + 1 ∧ y = cy) ∧ c0 = 0) :=
    ⟨_, hself, indicator_spec _⟩
  obtain ⟨c0, hc0, Ks⟩ := Hs
  rw [stepCell_eval, hc0]
  rw [hsum] at hcnt ⊢
  clear hsum hg hself hb
  split_ifs at hcnt <;> first | (exfalso; omega) | (split_ifs <;> omega)

/-- Coordinate form of membership in the horizontal blinker, for a flat
offset inside the buffer. -/
lemma coordH_iff (n cx cy i : Int) (hn : 0 < n)
    (hcx1 : 2 ≤ cx) (hcx2 : cx + 3 ≤ n) (hcy1 : 2 ≤ cy) (hcy2 : cy + 3 ≤ n)
    (h1 : 0 ≤ i) (h2 : i < n * n) :
    (i / n = cx ∧ cy - 1 ≤ i % n ∧ i % n ≤ cy + 1) ↔
      (i = cx * n + (cy - 1) ∨ i = cx * n + cy ∨ i = cx * n + (cy + 1)) := by
  obtain ⟨hq1, hq2, hr1, hr2⟩ := divmod_bounds n i hn h1 h2
  constructor
  · rintro ⟨hq, w1, w2⟩
    have hrec : i / n * n + i % n = i := idx_recon n i
    have hr : i % n = cy - 1 ∨ i % n = cy ∨ i % n = cy + 1 := by omega
    rcases hr with hr | hr | hr
    · left; rw [← hrec, hq, hr]
    · right; left; rw [← hrec, hq, hr]
    · right; right; rw [← hrec, hq, hr]
  · rintro (rfl | rfl | rfl)
    · obtain ⟨d, m⟩ := flat_divmod n cx (cy - 1) hn (by omega) (by omega)
      rw [d, m]
      exact ⟨rfl, by omega, by omega⟩
    · obtain ⟨d, m⟩ := flat_divmod n cx cy hn (by omega) (by omega)
      rw [d, m]
      exact ⟨rfl, by omega, by omega⟩
    · obtain ⟨d, m⟩ := flat_divmod n cx (cy + 1) hn (by omega) (by omega)
      rw [d, m]
      exact ⟨rfl, by omega, by omega⟩

/-- Coordinate form of membership in the vertical blinker, for a flat
offset inside the buffer. -/
lemma coordV_iff (n cx cy i : Int) (hn : 0 < n)
    (hcx1 : 2 ≤ cx) (hcx2 : cx + 3 ≤ n) (hcy1 : 2 ≤ cy) (hcy2 : cy + 3 ≤ n)
    (h1 : 0 ≤ i) (h2 : i < n * n) :
    (cx - 1 ≤ i / n ∧ i / n ≤ cx + 1 ∧ i % n = cy) ↔
      (i = (cx - 1) * n + cy ∨ i = cx * n + cy ∨ i = (cx + 1) * n + cy) := by
  obtain ⟨hq1, hq2, hr1, hr2⟩ := divmod_bounds n i hn h1 h2
  constructor
  · rintro ⟨w1, w2, hm⟩
    have hrec : i / n * n + i % n = i := idx_recon n i
    have hq : i / n = cx - 1 ∨ i / n = cx ∨ i / n = cx + 1 := by omega
    rcases hq with hq | hq | hq
    · left; rw [← hrec, hq, hm]
    · right; left; rw [← hrec, hq, hm]
    · right; right; rw [← hrec, hq, hm]
  · rintro (rfl | rfl | rfl)
    · obtain ⟨d, m⟩ := flat_divmod n (cx - 1) cy hn (by omega) (by omega)
      rw [d, m]
      exact ⟨by omega, by omega, rfl⟩
    · obtain ⟨d, m⟩ := flat_divmod n cx cy hn (by omega) (by omega)
      rw [d, m]
      exact ⟨by omega, by omega, rfl⟩
    · obtain ⟨d, m⟩ := flat_divmod n (cx + 1) cy hn (by omega) (by omega)
      rw [d, m]
      exact ⟨by omega, by omega, rfl⟩

/-- Reduction of `gameStep` at an in-range offset. -/
lemma gameStep_in (n : Int) (c : Buf) (i : Int) (h1 : 0 ≤ i) (h2 : i < n * n) :
    gameStep n c i = stepCell n n c (i / n) (i % n) := if_pos ⟨h1, h2⟩

/-- C8: a horizontal blinker with one cell of dead margin inside the grid
becomes the vertical blinker through the same centre after one
generation step, and the original horizontal blinker again after a
second step: the step applied twice is the identity on this
configuration. -/
theorem c8_blinker_period_two (n cx cy : Int) (b : Buf) (hn : 0 < n)
    (hcx1 : 2 ≤ cx) (hcx2 : cx + 3 ≤ n) (hcy1 : 2 ≤ cy) (hcy2 : cy + 3 ≤ n)
    (hb : ∀ i, 0 ≤ i → i < n * n → b i = hBlink n cx cy i) :
    (∀ i, 0 ≤ i → i < n * n → gameStep n b i = vBlink n cx cy i) ∧
    (∀ i, 0 ≤ i → i < n * n → gameStep n (gameStep n b) i = hBlink n cx cy i) := by
  have hstep1 : ∀ i, 0 ≤ i → i < n * n → gameStep n b i = vBlink n cx cy i := by
    intro i h1 h2
    obtain ⟨hq1, hq2, hr1, hr2⟩ := divmod_bounds n i hn h1 h2
    rw [gameStep_in n b i h1 h2,
      stepCell_hBlink n cx cy b hn hcx1 hcx2 hcy1 hcy2 hb (i / n) (i % n) hq1 hq2 hr1 hr2]
    simp only [vBlink]
    exact if_congr (coordV_iff n cx cy i hn hcx1 hcx2 hcy1 hcy2 h1 h2) rfl rfl
  refine ⟨hstep1, fun i h1 h2 => ?_⟩
  obtain ⟨hq1, hq2, hr1, hr2⟩ := divmod_bounds n i hn h1 h2
  rw [gameStep_in n (gameStep n b) i h1 h2,
    stepCell_vBlink n cx cy (gameStep n b) hn hcx1 hcx2 hcy1 hcy2 hstep1
      (i / n) (i % n) hq1 hq2 hr1 hr2]
  simp only [hBlink]
  exact if_congr (coordH_iff n cx cy i hn hcx1 hcx2 hcy1 hcy2 h1 h2) rfl rfl

/-- Witness for C8 on a 5 × 5 board with the blinker centred at (2, 2):
cell (1, 2) (flat offset 7) is born in step one, and the centre row cell
(2, 1) (flat offset 11) is live again after step two. -/
theorem c8_blinker_period_two_witness :
    ((0 : Int) < 5) ∧ ((2 : Int) ≤ 2) ∧ ((2 : Int) + 3 ≤ 5) ∧
      gameStep 5 (hBlink 5 2 2) 7 = vBlink 5 2 2 7 ∧
      gameStep 5 (gameStep 5 (hBlink 5 2 2)) 11 = hBlink 5 2 2 11 :=
  ⟨by decide, by decide, by decide,
    (c8_blinker_period_two 5 2 2 (hBlink 5 2 2) (by decide) (by decide) (by decide)
      (by decide) (by decide) (fun _ _ _ => rfl)).1 7 (by decide) (by decide),
    (c8_blinker_period_two 5 2 2 (hBlink 5 2 2) (by decide) (by decide) (by decide)
      (by decide) (by decide) (fun _ _ _ => rfl)).2 11 (by decide) (by decide)⟩

/-- C2: the board copied back and rendered as the "Resulting Board" is
one generation behind.  With `ngenerations = 1` the loop body runs once
with `pcurr = pDevBoard0`, the kernel writes the step into `pDevBoard1`,
and line 182 then copies `pcurr` — the untouched initial board — so the
rendered board equals the initial board for every initial content, while
the true one-step result differs from it already at cell (2, 3) of a
64 × 64 board holding a blinker centred at (3, 3). -/
theorem c2_final_board_lags_one_generation :
    (∀ (n : Int) (d0 d1 : Buf), mainFinalDevice n 1 d0 d1 = d0) ∧
    gameStep 64 (hBlink 64 3 3) (2 * 64 + 3) = 1 ∧
    hBlink 64 3 3 (2 * 64 + 3) = 0 :=
  ⟨fun _ _ _ => rfl, by decide, by decide⟩

/-- C6 counterexample: when the host `malloc` fails (result `none`), the
allocation phase of `main` still proceeds — carrying the null buffer —
instead of aborting. -/
theorem c6_no_abort_on_failed_alloc :
    mainAllocPhase none (some zeroBuf) (some zeroBuf) =
      AllocPhase.proceed none (some zeroBuf) (some zeroBuf) ∧
    (mainAllocPhase none (some zeroBuf) (some zeroBuf)).aborted = false :=
  ⟨rfl, rfl⟩

/-- C6 amended: `main` never checks any of the three allocation results;
whatever they are — including failures — control proceeds unconditionally
to board initialization and the generation loop, with no abort path. -/
theorem c6_alloc_never_checked (hostAlloc devAlloc0 devAlloc1 : Option Buf) :
    mainAllocPhase hostAlloc devAlloc0 devAlloc1 =
      AllocPhase.proceed hostAlloc devAlloc0 devAlloc1 ∧
    (mainAllocPhase hostAlloc devAlloc0 devAlloc1).aborted = false :=
  ⟨rfl, rfl⟩

/-- Accumulating digits of a digit-free list returns the accumulator. -/
lemma readDigits_no_digit (l : List Char) (a : Nat) (h : ∀ c ∈ l, ¬c.isDigit) :
    readDigits l a = a := by
  cases l with
  | nil => rfl
  | cons c cs =>
      simp only [readDigits]
      exact if_neg (h c (List.mem_cons_self c cs))

/-- C `atoi` on a string containing no decimal digit performs no
conversion and returns 0. -/
lemma atoi_no_digits (s : String) (h : ∀ c ∈ s.data, ¬c.isDigit) : atoi s = 0 := by
  have hsub : ∀ c ∈ s.data.dropWhile (fun c => isSpaceChar c), ¬c.isDigit := by
    intro c hc
    exact h c ((List.dropWhile_sublist _).subset hc)
  unfold atoi
  split
  · rename_i r heq
    rw [readDigits_no_digit r 0 (fun c hc => hsub c (heq ▸ List.mem_cons_of_mem _ hc))]
    rfl
  · rename_i r heq
    rw [readDigits_no_digit r 0 (fun c hc => hsub c (heq ▸ List.mem_cons_of_mem _ hc))]
    rfl
  · rename_i heq1 heq2
    rw [readDigits_no_digit _ 0 hsub]
    rfl

/-- C7 counterexample: the malformed argument "abc" yields generation
count `atoi("abc") = 0`, not the no-argument default 1000000. -/
theorem c7_malformed_arg_not_default :
    ngenerationsFromArgs ["abc"] = 0 ∧ ngenerationsFromArgs [] = 1000000 ∧
      (0 : Int) ≠ 1000000 :=
  ⟨by decide, rfl, by decide⟩

/-- C7 amended: for every argument string containing no decimal digit,
the generation count is `atoi`'s no-conversion result 0; the large fixed
default 1000000 is used only when no argument is supplied. -/
theorem c7_malformed_arg_runs_zero_generations (s : String)
    (h : ∀ c ∈ s.data, ¬c.isDigit) :
    ngenerationsFromArgs [s] = 0 ∧ ngenerationsFromArgs [] = 1000000 := by
  constructor
  · show atoi s = 0
    exact atoi_no_digits s h
  · rfl

/-- Witness for the amended C7 at the concrete argument "abc". -/
theorem c7_malformed_arg_runs_zero_generations_witness :
    (∀ c ∈ "abc".data, ¬c.isDigit) ∧ ngenerationsFromArgs ["abc"] = 0 :=
  ⟨by decide, (c7_malformed_arg_runs_zero_generations "abc" (by decide)).1⟩

/-! ### The fold of thread bodies computes the pointwise launch effect -/

/-- The thread body applied at an arbitrary state pair. -/
lemma simstepThread_next' (nrows ncols x y : Int) (st : Buf × Buf) :
    (simstepThread nrows ncols x y st).2 =
      writeBuf st.2 (x * ncols + y) (stepCell nrows ncols st.1 x y) :=
  simstepThread_next nrows ncols x y st.1 st.2

/-- Offsets targeted by no thread of the list keep their previous
contents through a launch. -/
lemma simstepGrid_untouched (n : Int) (ts : List (Int × Int)) (j : Int)
    (h : ∀ p ∈ ts, p.1 * n + p.2 ≠ j) :
    ∀ st : Buf × Buf, (simstepGrid n n ts st).2 j = st.2 j := by
  induction ts with
  | nil => intro st; rfl
  | cons q rest ih =>
      intro st
      show (simstepGrid n n rest (simstepThread n n q.1 q.2 st)).2 j = st.2 j
      rw [ih (fun r hr => h r (List.mem_cons_of_mem _ hr)) _, simstepThread_next',
        writeBuf_other _ _ _ j (fun he => h q (List.mem_cons_self q rest) he.symm)]

/-- The cell of a thread that occurs in the list (uniquely up to its
write target) ends up holding that thread's `stepCell` value, computed
from the untouched current board. -/
lemma simstepGrid_written (n : Int) (ts : List (Int × Int)) :
    ∀ (st : Buf × Buf) (p : Int × Int), p ∈ ts →
      (∀ q ∈ ts, q.1 * n + q.2 = p.1 * n + p.2 → q = p) →
      (simstepGrid n n ts st).2 (p.1 * n + p.2) = stepCell n n st.1 p.1 p.2 := by
  induction ts with
  | nil => intro st p hp _; exact absurd hp (List.not_mem_nil p)
  | cons q rest ih =>
      intro st p hp huniq
      show (simstepGrid n n rest (simstepThread n n q.1 q.2 st)).2 _ = _
      by_cases hrest : p ∈ rest
      · rw [ih _ p hrest (fun r hr he => huniq r (List.mem_cons_of_mem _ hr) he)]
        rfl
      · have hpq : p = q := by
          rcases List.mem_cons.mp hp with h | h
          · exact h
          · exact absurd h hrest
        subst hpq
        have hnot : ∀ r ∈ rest, r.1 * n + r.2 ≠ p.1 * n + p.2 := fun r hr he =>
          hrest (huniq r (List.mem_cons_of_mem _ hr) he ▸ hr)
        rw [simstepGrid_untouched n rest _ hnot _, simstepThread_next', writeBuf_same]

/-- The blocked thread enumeration along one dimension is exactly the
contiguous range of `nblocks * 16` coordinates. -/
lemma blockThreads_eq_range (m : Nat) : blockThreads m = List.range (m * 16) := by
  induction m with
  | zero => rfl
  | succ k ih =>
      rw [blockThreads, List.range_succ, List.flatMap_append, ← blockThreads, ih,
        Nat.succ_mul, List.range_add]
      simp

/-- Membership in a product-of-ranges coordinate list. -/
lemma mem_prodRange (W H : Nat) (p : Int × Int) :
    (p ∈ (List.range W).flatMap
      (fun x : Nat => (List.range H).map (fun y : Nat => ((x : Int), (y : Int))))) ↔
    (0 ≤ p.1 ∧ p.1 < (W : Int) ∧ 0 ≤ p.2 ∧ p.2 < (H : Int)) := by
  constructor
  · intro hp
    obtain ⟨a, ha, hmem⟩ := List.mem_flatMap.mp hp
    obtain ⟨b, hb, hpe⟩ := List.mem_map.mp hmem
    have ha' : a < W := List.mem_range.mp ha
    have hb' : b < H := List.mem_range.mp hb
    rw [← hpe]
    refine ⟨by omega, by omega, by omega, by omega⟩
  · rintro ⟨h1, h2, h3, h4⟩
    obtain ⟨px, py⟩ := p
    have e1 : ((px.toNat : Int)) = px := Int.toNat_of_nonneg h1
    have e2 : ((py.toNat : Int)) = py := Int.toNat_of_nonneg h3
    rw [← e1, ← e2]
    apply List.mem_flatMap.mpr
    refine ⟨px.toNat, List.mem_range.mpr (by omega), ?_⟩
    exact List.mem_map_of_mem (fun y : Nat => ((px.toNat : Int), (y : Int)))
      (List.mem_range.mpr (by omega))

/-- One full `simstep` launch, modelled as any sequential interleaving of
its threads, produces exactly the pointwise `simstepLaunch` buffer: the
launch geometry covers each cell once (16 divides the board side), every
thread writes only its own cell, and all reads come from the unchanged
current board. -/
lemma simstepGrid_eq_launch (nn : Nat) (hn : 0 < nn) (hdvd : 16 ∣ nn)
    (curr next : Buf) (i : Int) :
    (simstepGrid (nn : Int) (nn : Int) (gridCoords nn nn) (curr, next)).2 i =
      simstepLaunch (nn : Int) curr next i := by
  have hgc : gridCoords nn nn = (List.range nn).flatMap
      (fun x : Nat => (List.range nn).map (fun y : Nat => ((x : Int), (y : Int)))) := by
    rw [gridCoords, blockThreads_eq_range, Nat.div_mul_cancel hdvd]
  have hnn : (0 : Int) < (nn : Int) := by omega
  by_cases hi : 0 ≤ i ∧ i < (nn : Int) * (nn : Int)
  · obtain ⟨hq1, hq2, hr1, hr2⟩ := divmod_bounds (nn : Int) i hnn hi.1 hi.2
    have hpmem : ((i / (nn : Int), i % (nn : Int)) : Int × Int) ∈ gridCoords nn nn := by
      rw [hgc]
      exact (mem_prodRange nn nn _).mpr ⟨hq1, hq2, hr1, hr2⟩
    have huniq : ∀ q ∈ gridCoords nn nn,
        q.1 * (nn : Int) + q.2 = (i / (nn : Int)) * (nn : Int) + i % (nn : Int) →
        q = (i / (nn : Int), i % (nn : Int)) := by
      intro q hq he
      rw [hgc] at hq
      obtain ⟨g1, g2, g3, g4⟩ := (mem_prodRange nn nn q).mp hq
      obtain ⟨e1, e2⟩ := (flat_eq (nn : Int) q.1 q.2 (i / (nn : Int)) (i % (nn : Int))
        hnn g3 g4 hr1 hr2).mp he
      exact Prod.ext e1 e2
    have hw := simstepGrid_written (nn : Int) (gridCoords nn nn) (curr, next)
      (i / (nn : Int), i % (nn : Int)) hpmem huniq
    rw [idx_recon] at hw
    rw [hw, simstepLaunch, if_pos hi]
  · have hnot : ∀ p ∈ gridCoords nn nn, p.1 * (nn : Int) + p.2 ≠ i := by
      intro p hp he
      rw [hgc] at hp
      obtain ⟨g1, g2, g3, g4⟩ := (mem_prodRange nn nn p).mp hp
      obtain ⟨r1, r2⟩ := idx_range (nn : Int) p.1 p.2 hnn g1 g2 g3 g4
      exact hi ⟨by omega, by omega⟩
    rw [simstepGrid_untouched (nn : Int) (gridCoords nn nn) i hnot (curr, next)]
    rw [simstepLaunch, if_neg hi]
